import Mathlib

/-!
Verification of the BibTeX extraction tool (`extract_literature_information.py`).

This file gives a shallow embedding of the two core components of the tool:

* `BibSpec.clean_field_value` — the field-value normalization pipeline
  (lines 13-112 of the source): an ordered sequence of regular-expression
  substitutions over the value string.  Every regex used by the source is
  deterministic (its character classes exclude the characters the pattern
  needs next, so greedy matching never backtracks); each substitution is
  therefore embedded as a left-to-right scan `subM` driven by a matcher
  that, at each position, either fails or consumes a positive number of
  characters and produces a replacement — exactly the semantics of
  `re.sub` / `str.replace` for these patterns.

* `BibSpec.segment` / `BibSpec.parse_bibtex_file` — the record segmentation
  and field extraction (lines 114-195): markers `@word ... ,` are found
  left to right (`re.finditer`), then bodies are the half-open slices
  between consecutive marker start offsets; each body is searched with the
  fixed catalog `field_patterns` of 25 anchored field regexes.

Character classes (`\s`, `\w`, `[a-zA-Z]`) are modelled on their ASCII
range, which is the range exercised by the data this tool processes.
Machine strings are `List Char` (Unicode scalar values), matching Python
`str` for the code points involved.
-/

set_option maxRecDepth 100000

namespace BibSpec

/-- ASCII whitespace, the model of the regex class `\s` and of the
characters removed by `str.strip`. -/
def isWs (c : Char) : Bool :=
  c == ' ' || c == '\t' || c == '\n' || c == '\r' || c == '\x0b' || c == '\x0c'

/-- Model of the regex class `\w` (word character). -/
def isWordC (c : Char) : Bool :=
  c.isAlpha || c.isDigit || c == '_'

/-- Model of the regex class `[a-zA-Z]`. -/
def isAlphaC (c : Char) : Bool := c.isAlpha

/-- Characters allowed inside a brace group: the class excluding both braces. -/
def nonBrace (c : Char) : Bool := !(c == '\x7b' || c == '\x7d')

/-- The left brace character. -/
def lbc : Char := '\x7b'

/-- The right brace character. -/
def rbc : Char := '\x7d'

/-- The ASCII apostrophe (straight single quote). -/
def apoc : Char := '\x27'

/-- The backtick character. -/
def btc : Char := '\x60'

/-- Boolean test that `p` is a prefix of `s`. -/
def pfx : List Char → List Char → Bool
  | [], _ => true
  | _ :: _, [] => false
  | a :: as, b :: bbs => a == b && pfx as bbs

/-- Boolean test that `p` occurs as a contiguous substring of `s`. -/
def hasSub (p : List Char) : List Char → Bool
  | [] => pfx p []
  | c :: cs => pfx p (c :: cs) || hasSub p cs

/-- One left-to-right substitution scan, fuelled.  At each position the
matcher `m` either fails (the character is copied) or returns
`(n, r)`: the match consumed `n + 1` characters which are replaced by `r`,
and scanning resumes after the match (the replacement is not rescanned) —
the semantics of `re.sub` for a deterministic pattern.  The fuel is
irrelevant as soon as it is at least the length of the input
(`subMF_congr` below); it only makes the recursion structural. -/
def subMF (m : List Char → Option (Nat × List Char)) : Nat → List Char → List Char
  | 0, l => l
  | _ + 1, [] => []
  | k + 1, c :: cs =>
    match m (c :: cs) with
    | some (n, r) => r ++ subMF m k (cs.drop n)
    | none => c :: subMF m k cs

/-- Left-to-right substitution: `subMF` with adequate fuel. -/
def subM (m : List Char → Option (Nat × List Char)) (l : List Char) : List Char :=
  subMF m l.length l

/-- A substitution rule of the normalizer's mapping tables.
`lit p r` is a plain literal pattern (all regex metacharacters in the
source pattern are escaped); `litWB p r` is a literal pattern followed by
the word boundary `\b` (all such patterns in the source end in a letter,
so the boundary holds iff the next character is not a word character);
`acuteBr l r` is the acute-family pattern with optional accent mark,
`\\'?\x7bl\x7d`, which matches the 5-character form (with apostrophe)
first, then the 4-character form (without). -/
inductive Rule where
  | lit : List Char → List Char → Rule
  | litWB : List Char → List Char → Rule
  | acuteBr : Char → List Char → Rule

/-- Word boundary after the first `n` characters of `s`: the next
character, if any, is not a word character (all patterns using this end
in a word character). -/
def wbAfter (n : Nat) (s : List Char) : Bool :=
  match s.drop n with
  | [] => true
  | d :: _ => !isWordC d

/-- The matcher of a substitution rule. -/
def ruleM : Rule → List Char → Option (Nat × List Char)
  | .lit p r, s => if pfx p s then some (p.length - 1, r) else none
  | .litWB p r, s =>
      if pfx p s && wbAfter p.length s then some (p.length - 1, r) else none
  | .acuteBr l r, s =>
      if pfx ['\\', apoc, lbc, l, rbc] s then some (4, r)
      else if pfx ['\\', lbc, l, rbc] s then some (3, r)
      else none

/-- Apply one substitution rule to the whole string (one `re.sub` pass). -/
def applyRule (s : List Char) (r : Rule) : List Char := subM (ruleM r) s

/-- Brace-wrapped accent pattern `\a\x7bl\x7d` as a literal. -/
def bracedRule (a l rep : Char) : Rule := .lit ['\\', a, lbc, l, rbc] [rep]

/-- Word-boundary-terminated escape `\p...\b`. -/
def wbRule (p : String) (rep : Char) : Rule := .litWB ('\\' :: p.data) [rep]

/-- Brace-free acute shorthand `\'l\b`. -/
def sAcute (l rep : Char) : Rule := .litWB ['\\', apoc, l] [rep]

/-- Brace-free grave shorthand. -/
def sGrave (l rep : Char) : Rule := .litWB ['\\', btc, l] [rep]

/-- Brace-free diaeresis shorthand. -/
def sDia (l rep : Char) : Rule := .litWB ['\\', '"', l] [rep]

/-- The LaTeX accent mapping table of `clean_field_value` (source lines
21-70), in insertion order; each entry is one `re.sub` pass. -/
def latex_mappings : List Rule := [
  bracedRule '~' 'n' 'ñ', bracedRule '~' 'N' 'Ñ',
  bracedRule '~' 'a' 'ã', bracedRule '~' 'A' 'Ã',
  bracedRule '~' 'o' 'õ', bracedRule '~' 'O' 'Õ',
  .acuteBr 'a' ['á'], .acuteBr 'A' ['Á'],
  .acuteBr 'e' ['é'], .acuteBr 'E' ['É'],
  .acuteBr 'i' ['í'], .acuteBr 'I' ['Í'],
  .acuteBr 'o' ['ó'], .acuteBr 'O' ['Ó'],
  .acuteBr 'u' ['ú'], .acuteBr 'U' ['Ú'],
  .acuteBr 'y' ['ý'], .acuteBr 'Y' ['Ý'],
  .acuteBr 'c' ['ć'], .acuteBr 'C' ['Ć'],
  bracedRule btc 'a' 'à', bracedRule btc 'A' 'À',
  bracedRule btc 'e' 'è', bracedRule btc 'E' 'È',
  bracedRule btc 'i' 'ì', bracedRule btc 'I' 'Ì',
  bracedRule btc 'o' 'ò', bracedRule btc 'O' 'Ò',
  bracedRule btc 'u' 'ù', bracedRule btc 'U' 'Ù',
  bracedRule '"' 'a' 'ä', bracedRule '"' 'A' 'Ä',
  bracedRule '"' 'e' 'ë', bracedRule '"' 'E' 'Ë',
  bracedRule '"' 'i' 'ï', bracedRule '"' 'I' 'Ï',
  bracedRule '"' 'o' 'ö', bracedRule '"' 'O' 'Ö',
  bracedRule '"' 'u' 'ü', bracedRule '"' 'U' 'Ü',
  bracedRule '^' 'a' 'â', bracedRule '^' 'A' 'Â',
  bracedRule '^' 'e' 'ê', bracedRule '^' 'E' 'Ê',
  bracedRule '^' 'i' 'î', bracedRule '^' 'I' 'Î',
  bracedRule '^' 'o' 'ô', bracedRule '^' 'O' 'Ô',
  bracedRule '^' 'u' 'û', bracedRule '^' 'U' 'Û',
  bracedRule 'c' 'c' 'ç', bracedRule 'c' 'C' 'Ç',
  wbRule "ss" 'ß',
  wbRule "ae" 'æ', wbRule "AE" 'Æ',
  wbRule "oe" 'œ', wbRule "OE" 'Œ',
  wbRule "o" 'ø', wbRule "O" 'Ø',
  wbRule "aa" 'å', wbRule "AA" 'Å',
  wbRule "textquestiondown" '¿',
  wbRule "textexclamdown" '¡' ]

/-- The brace-free shorthand mapping table (source lines 77-88). -/
def simple_mappings : List Rule := [
  wbRule "~n" 'ñ', wbRule "~N" 'Ñ',
  sAcute 'a' 'á', sAcute 'A' 'Á', sAcute 'e' 'é', sAcute 'E' 'É',
  sAcute 'i' 'í', sAcute 'I' 'Í', sAcute 'o' 'ó', sAcute 'O' 'Ó',
  sAcute 'u' 'ú', sAcute 'U' 'Ú',
  sGrave 'a' 'à', sGrave 'A' 'À', sGrave 'e' 'è', sGrave 'E' 'È',
  sGrave 'i' 'ì', sGrave 'I' 'Ì', sGrave 'o' 'ò', sGrave 'O' 'Ò',
  sGrave 'u' 'ù', sGrave 'U' 'Ù',
  sDia 'a' 'ä', sDia 'A' 'Ä', sDia 'e' 'ë', sDia 'E' 'Ë',
  sDia 'i' 'ï', sDia 'I' 'Ï', sDia 'o' 'ö', sDia 'O' 'Ö',
  sDia 'u' 'ü', sDia 'U' 'Ü' ]

/-- Matcher for the brace-stripping pass `re.sub` of `\x7b([^\x7b\x7d]*)\x7d`
with the group as replacement (source line 94): an opening brace, a run of
non-brace characters, a closing brace; the braces are dropped. -/
def braceM : List Char → Option (Nat × List Char)
  | c :: cs =>
    if c = lbc then
      let run := cs.takeWhile nonBrace
      match cs.drop run.length with
      | d :: _ => if d = rbc then some (run.length + 1, run) else none
      | [] => none
    else none
  | [] => none

/-- Matcher for `\\[a-zA-Z]+\s*` replaced by a single space (source line
105): a backslash, a nonempty alphabetic run, trailing whitespace. -/
def cmdM : List Char → Option (Nat × List Char)
  | c :: cs =>
    if c = '\\' then
      let run := cs.takeWhile isAlphaC
      if run.isEmpty then none
      else
        let ws := (cs.drop run.length).takeWhile isWs
        some (run.length + ws.length, [' '])
    else none
  | [] => none

/-- Matcher for `\\(.)` replaced by the captured character (source line
106); `.` does not match a newline. -/
def escM : List Char → Option (Nat × List Char)
  | a :: d :: _ => if a = '\\' && d ≠ '\n' then some (1, [d]) else none
  | _ => none

/-- Matcher for `\s+` replaced by a single space (source line 109). -/
def wsM : List Char → Option (Nat × List Char)
  | c :: cs => if isWs c then some ((cs.takeWhile isWs).length, [' ']) else none
  | [] => none

/-- Model of `str.strip`: drop whitespace from both ends. -/
def stripWs (l : List Char) : List Char :=
  ((l.dropWhile isWs).reverse.dropWhile isWs).reverse

/-- The replacement text of the source's backtick `str.replace`.  On
source lines 101-102 the intended one-character replacements are written
as three consecutive straight apostrophes, which the language lexes as a
triple-quoted string delimiter: the two lines merge into a single
statement replacing every backtick by the raw text between the two
delimiters — a close parenthesis, spaces, the line-101 comment, the
newline, and the leading text of line 102 — and the straight-apostrophe
replacement written on line 102 is absorbed into that string literal and
never executes.  Byte-for-byte value confirmed against the source. -/
def junkRepl : List Char :=
  ")   # 左单引号\n    value = value.replace(\"\x27\", ".data

/-- The whole normalization pipeline on a character list, in the exact
order of the source (lines 20-112): LaTeX accent table, brace-free
shorthand table, brace stripping, dash replacements, double-quote pair
replacements, the backtick replacement (with the `junkRepl` replacement
text produced by the source's triple-quoted-string lexing accident; no
straight-apostrophe replacement is ever executed), unknown-command
removal, escape unwrapping, whitespace collapsing and trimming. -/
def cleanL (v : List Char) : List Char :=
  let v1 := latex_mappings.foldl applyRule v
  let v2 := simple_mappings.foldl applyRule v1
  let v3 := subM braceM v2
  let v4 := applyRule v3 (.lit ['-', '-'] ['–'])
  let v5 := applyRule v4 (.lit ['-', '-', '-'] ['—'])
  let v6 := applyRule v5 (.lit [btc, btc] ['"'])
  let v7 := applyRule v6 (.lit [apoc, apoc] ['"'])
  let v8 := applyRule v7 (.lit [btc] junkRepl)
  let v9 := subM cmdM v8
  let v10 := subM escM v9
  let v11 := subM wsM v10
  stripWs v11

/-- `clean_field_value` (source lines 13-112).  A falsy (empty) value is
returned as the empty string immediately. -/
def clean_field_value (s : String) : String :=
  if s = "" then "" else String.mk (cleanL s.data)

/-! ### Record segmentation (source lines 126-151) -/

/-- A marker: start offset, entry type, entry key. -/
abbrev Marker := Nat × List Char × List Char

/-- Consume one expected character at the head of a list. -/
def afterChar (c : Char) : List Char → Option (List Char)
  | d :: t => if d = c then some t else none
  | [] => none

/-- Match of the entry pattern `@(\w+)\x7b([^,\s]+),` at the head of `cs`:
an at sign, a nonempty run of word characters (the type), an opening
brace, a nonempty run of characters that are neither comma nor whitespace
(the key), a comma.  Returns the total number of characters consumed, the
type and the key. -/
def matchMarkerAt (cs : List Char) : Option (Nat × List Char × List Char) :=
  (afterChar '@' cs).bind fun r1 =>
    let ty := r1.takeWhile isWordC
    if ty.isEmpty then none
    else
      (afterChar lbc (r1.drop ty.length)).bind fun r2 =>
        let key := r2.takeWhile (fun d => !(d == ',' || isWs d))
        if key.isEmpty then none
        else
          (afterChar ',' (r2.drop key.length)).map fun _ =>
            (ty.length + key.length + 3, ty, key)

/-- Fuelled scan for all non-overlapping marker matches, left to right,
resuming after each match — the semantics of `re.finditer`.  `pos` is the
offset of the head of `cs` in the whole text. -/
def findMarkersF : Nat → List Char → Nat → List Marker
  | 0, _, _ => []
  | _ + 1, [], _ => []
  | k + 1, c :: cs, pos =>
    match matchMarkerAt (c :: cs) with
    | some (len, ty, key) => (pos, ty, key) :: findMarkersF k ((c :: cs).drop len) (pos + len)
    | none => findMarkersF k cs (pos + 1)

/-- All marker matches of the text. -/
def findMarkers (cs : List Char) (pos : Nat) : List Marker :=
  findMarkersF cs.length cs pos

/-- `content[s:e]` — the Python slice. -/
def extract (content : List Char) (s e : Nat) : List Char :=
  (content.drop s).take (e - s)

/-- Pair every marker with the end offset of its record: the start offset
of the next marker, or `len` (end of text) for the last marker. -/
def entryBounds : List Marker → Nat → List (Marker × Nat)
  | [], _ => []
  | [m], len => [(m, len)]
  | m :: m2 :: rest, len => (m, m2.1) :: entryBounds (m2 :: rest) len

/-- A segmented record: lower-cased type, stripped key, body slice. -/
structure RawRecord where
  type : List Char
  key : List Char
  body : List Char
  deriving DecidableEq, Repr

/-- The record segmenter (source lines 129-145): find all markers, then
slice each record's body from its marker's start offset up to the next
marker's start offset (or end of text). -/
def segment (content : List Char) : List RawRecord :=
  (entryBounds (findMarkers content 0) content.length).map fun me =>
    { type := me.1.2.1.map Char.toLower
      key := stripWs me.1.2.2
      body := extract content me.1.1 me.2 }

/-! ### Field extraction (source lines 153-187) -/

/-- The two families of field patterns: `simple` fields use
`name\s*=\s*\x7b([^\x7d]+)\x7d` and `balanced` fields use
`name\s*=\s*\x7b([^\x7b\x7d]*(?:\x7b[^\x7b\x7d]*\x7d[^\x7b\x7d]*)*)\x7d`. -/
inductive FKind where
  | simple
  | balanced
  deriving DecidableEq, Repr

/-- Match of the anchor `name\s*=\s*\x7b` at the head of `s`; returns the
rest of the string after the opening brace. -/
def matchAnchorAt (nm : List Char) (s : List Char) : Option (List Char) :=
  if pfx nm s then
    (afterChar '=' ((s.drop nm.length).dropWhile isWs)).bind fun r3 =>
      afterChar lbc (r3.dropWhile isWs)
  else none

/-- Fuelled parse of the balanced-field capture group
`[^\x7b\x7d]*(?:\x7b[^\x7b\x7d]*\x7d[^\x7b\x7d]*)*` followed by the
closing `\x7d`: a run of non-brace characters, then either the closing
brace (group ends) or a single-level braced subgroup and the rest of the
group.  The regex never backtracks successfully here (each character class
excludes the brace the pattern needs next), so a failure at any stage is a
failure of the whole match — which this direct recursion mirrors. -/
def balGroupF : Nat → List Char → Option (List Char)
  | 0, _ => none
  | k + 1, r =>
    let a := r.takeWhile nonBrace
    match r.drop a.length with
    | d :: r2 =>
      if d = rbc then some a
      else if d = lbc then
        let b := r2.takeWhile nonBrace
        match r2.drop b.length with
        | e :: r3 =>
          if e = rbc then (balGroupF k r3).map fun g => a ++ lbc :: (b ++ rbc :: g)
          else none
        | [] => none
      else none
    | [] => none

/-- Balanced-field capture group with adequate fuel. -/
def balGroup (r : List Char) : Option (List Char) := balGroupF (r.length + 1) r

/-- Parse the capture group after the anchor, by field family.  A simple
field requires a nonempty run of non-`\x7d` characters followed by `\x7d`. -/
def parseGroup : FKind → List Char → Option (List Char)
  | .simple, r =>
    let run := r.takeWhile (fun c => !(c == rbc))
    if run.isEmpty then none
    else
      match r.drop run.length with
      | d :: _ => if d = rbc then some run else none
      | [] => none
  | .balanced, r => balGroup r

/-- Full field-pattern match at the head of `s`. -/
def matchFieldAt (k : FKind) (nm : List Char) (s : List Char) : Option (List Char) :=
  (matchAnchorAt nm s).bind (parseGroup k)

/-- `re.search` for a field pattern: the first position, left to right,
where the pattern matches; returns the capture group. -/
def searchField (k : FKind) (nm : List Char) : List Char → Option (List Char)
  | [] => none
  | c :: cs =>
    match matchFieldAt k nm (c :: cs) with
    | some g => some g
    | none => searchField k nm cs

/-- Whether the field's anchor `name\s*=\s*\x7b` occurs anywhere in the body. -/
def hasAnchor (nm : List Char) : List Char → Bool
  | [] => false
  | c :: cs => (matchAnchorAt nm (c :: cs)).isSome || hasAnchor nm cs

/-- The field catalog (source lines 154-180), in source order. -/
def field_patterns : List (String × FKind) := [
  ("author", .balanced), ("title", .balanced), ("year", .simple),
  ("journal", .balanced), ("booktitle", .balanced), ("publisher", .balanced),
  ("volume", .simple), ("number", .simple), ("pages", .simple),
  ("doi", .simple), ("url", .simple), ("abstract", .balanced),
  ("keywords", .balanced), ("location", .balanced), ("series", .balanced),
  ("isbn", .simple), ("issn", .simple), ("address", .balanced),
  ("editor", .balanced), ("organization", .balanced), ("month", .simple),
  ("note", .balanced), ("articleno", .simple), ("numpages", .simple),
  ("issue_date", .simple) ]

/-- Field extraction over a record body (source lines 183-187): for each
catalog entry in order, search the body; when the pattern matches, the
cleaned capture group is added under the field's name; otherwise the field
is omitted entirely. -/
def extractFields (body : List Char) : List (String × String) :=
  field_patterns.filterMap fun p =>
    (searchField p.2 p.1.data body).map fun g => (p.1, clean_field_value (String.mk g))

/-- A parsed entry: type, key and extracted fields. -/
structure BibEntry where
  type : String
  key : String
  fields : List (String × String)
  deriving DecidableEq, Repr

/-- The in-memory core of `parse_bibtex_file` (source lines 114-195),
after the file has been read into `content`: segment, then extract each
record's fields. -/
def parse_bibtex_file (content : String) : List BibEntry :=
  (segment content.data).map fun r =>
    { type := String.mk r.type, key := String.mk r.key, fields := extractFields r.body }

/-! ### Auxiliary predicates used by the theorems -/

/-- The first character of a rule's pattern is `h0`. -/
def ruleHeadIs (h0 : Char) : Rule → Bool
  | .lit p _ => match p with | [] => false | q :: _ => q == h0
  | .litWB p _ => match p with | [] => false | q :: _ => q == h0
  | .acuteBr _ _ => '\\' == h0

/-- The rule's pattern is nonempty (true of every rule in the tables). -/
def rulePatNonempty : Rule → Bool
  | .lit p _ => !p.isEmpty
  | .litWB p _ => !p.isEmpty
  | .acuteBr _ _ => true

/-- No two adjacent whitespace characters. -/
def noTwoWs (a b : Char) : Prop := isWs a = true → isWs b = true → False

/-- Whitespace-normalized: every whitespace character is a plain space and
no two whitespace characters are adjacent. -/
def okWs (l : List Char) : Prop :=
  (∀ c ∈ l, isWs c = true → c = ' ') ∧ List.Chain' noTwoWs l

/-- Drop leading whitespace. -/
def wsDropL (l : List Char) : List Char := l.dropWhile isWs

/-- Drop trailing whitespace. -/
def wsDropR (l : List Char) : List Char := (l.reverse.dropWhile isWs).reverse

/-- Start offset of the first marker, or `len` (end of text) if there is none. -/
def firstStart (ms : List Marker) (len : Nat) : Nat :=
  match ms with
  | [] => len
  | m :: _ => m.1

/-! ### Basic lemmas about the substitution engine -/

/-- The fuel of `subMF` is irrelevant once it reaches the input length. -/
theorem subMF_congr (m : List Char → Option (Nat × List Char)) :
    ∀ k k' l, l.length ≤ k → l.length ≤ k' → subMF m k l = subMF m k' l := by
  intro k
  induction k with
  | zero =>
    intro k' l hk _
    have : l = [] := List.eq_nil_of_length_eq_zero (Nat.le_zero.mp hk)
    subst this
    cases k' <;> rfl
  | succ k ih =>
    intro k' l hk hk'
    cases l with
    | nil => cases k' <;> rfl
    | cons c cs =>
      cases k' with
      | zero => simp at hk'
      | succ k' =>
        cases hm : m (c :: cs) with
        | some nr =>
          obtain ⟨n, r⟩ := nr
          have hlen : (cs.drop n).length ≤ k := by
            have := List.length_drop n cs
            simp at hk
            omega
          have hlen' : (cs.drop n).length ≤ k' := by
            have := List.length_drop n cs
            simp at hk'
            omega
          simp only [subMF, hm]
          rw [ih k' (cs.drop n) hlen hlen']
        | none =>
          have hcs : cs.length ≤ k := by simp at hk; omega
          have h2 : cs.length ≤ k' := by simp at hk'; omega
          simp only [subMF, hm]
          rw [ih k' cs hcs h2]

theorem subM_nil (m : List Char → Option (Nat × List Char)) : subM m [] = [] := rfl

theorem subM_cons_some {m : List Char → Option (Nat × List Char)} {c cs n r}
    (h : m (c :: cs) = some (n, r)) :
    subM m (c :: cs) = r ++ subM m (cs.drop n) := by
  unfold subM
  rw [show (c :: cs).length = cs.length + 1 from rfl]
  simp only [subMF, h]
  congr 1
  exact subMF_congr m cs.length (cs.drop n).length (cs.drop n)
    (by have := List.length_drop n cs; omega) (Nat.le_refl _)

theorem subM_cons_none {m : List Char → Option (Nat × List Char)} {c cs}
    (h : m (c :: cs) = none) :
    subM m (c :: cs) = c :: subM m cs := by
  unfold subM
  rw [show (c :: cs).length = cs.length + 1 from rfl]
  simp only [subMF, h]

/-- A scan whose matcher fails on every suffix of the input is the identity. -/
theorem subM_eq_self {m : List Char → Option (Nat × List Char)} :
    ∀ l, (∀ c cs, (c :: cs) <:+ l → m (c :: cs) = none) → subM m l = l := by
  intro l
  induction l with
  | nil => intro _; rfl
  | cons c cs ih =>
    intro h
    rw [subM_cons_none (h c cs (List.suffix_refl _))]
    congr 1
    exact ih fun d ds hs => h d ds (hs.trans (List.suffix_cons c cs))

/-- Every character of a scan's output comes from the input or from the
set `extra` of characters the matcher may introduce. -/
theorem subM_subset {m : List Char → Option (Nat × List Char)} {extra : List Char}
    (H : ∀ c cs n r, m (c :: cs) = some (n, r) → r ⊆ c :: (cs ++ extra)) :
    ∀ l x, x ∈ subM m l → x ∈ l ∨ x ∈ extra := by
  have key : ∀ k l x, x ∈ subMF m k l → x ∈ l ∨ x ∈ extra := by
    intro k
    induction k with
    | zero => intro l x hx; exact Or.inl hx
    | succ k ih =>
      intro l x hx
      cases l with
      | nil => simp [subMF] at hx
      | cons c cs =>
        rw [subMF] at hx
        cases hm : m (c :: cs) with
        | some nr =>
          obtain ⟨n, r⟩ := nr
          rw [hm] at hx
          rw [List.mem_append] at hx
          rcases hx with hr | hrec
          · have := H c cs n r hm hr
            rw [List.mem_cons] at this
            rcases this with h1 | h2
            · exact Or.inl (by simp [h1])
            · rw [List.mem_append] at h2
              rcases h2 with h3 | h4
              · exact Or.inl (List.mem_cons_of_mem c h3)
              · exact Or.inr h4
          · rcases ih (cs.drop n) x hrec with h1 | h2
            · exact Or.inl (List.mem_cons_of_mem c (List.drop_subset n cs h1))
            · exact Or.inr h2
        | none =>
          rw [hm] at hx
          rw [List.mem_cons] at hx
          rcases hx with h1 | h2
          · exact Or.inl (by simp [h1])
          · rcases ih cs x h2 with h3 | h4
            · exact Or.inl (List.mem_cons_of_mem c h3)
            · exact Or.inr h4
  intro l x hx
  exact key l.length l x hx

/-- A scan whose matcher always fires on — and never re-emits — the
character `c0` removes every occurrence of `c0`. -/
theorem subM_kill {m : List Char → Option (Nat × List Char)} {c0 : Char}
    (H1 : ∀ cs, m (c0 :: cs) ≠ none)
    (H2 : ∀ c cs n r, m (c :: cs) = some (n, r) → c0 ∉ r) :
    ∀ l, c0 ∉ subM m l := by
  have key : ∀ k l, l.length ≤ k → c0 ∉ subMF m k l := by
    intro k
    induction k with
    | zero =>
      intro l hl
      have : l = [] := List.eq_nil_of_length_eq_zero (Nat.le_zero.mp hl)
      subst this
      simp [subMF]
    | succ k ih =>
      intro l hl hx
      cases l with
      | nil => simp [subMF] at hx
      | cons c cs =>
        rw [subMF] at hx
        cases hm : m (c :: cs) with
        | some nr =>
          obtain ⟨n, r⟩ := nr
          rw [hm] at hx
          rw [List.mem_append] at hx
          rcases hx with hr | hrec
          · exact H2 c cs n r hm hr
          · have hlen : (cs.drop n).length ≤ k := by
              have := List.length_drop n cs
              simp at hl
              omega
            exact ih (cs.drop n) hlen hrec
        | none =>
          rw [hm] at hx
          rw [List.mem_cons] at hx
          rcases hx with h1 | h2
          · exact H1 cs (h1 ▸ hm)
          · exact ih cs (by simp at hl; omega) h2
  intro l
  exact key l.length l (Nat.le_refl _)

/-! ### Pattern-shape lemmas -/

theorem pfx_head {p0 : Char} {p c cs} (h : pfx (p0 :: p) (c :: cs) = true) : p0 = c := by
  rw [pfx] at h
  rw [Bool.and_eq_true] at h
  exact eq_of_beq h.1

theorem pfx_append_left {p q : List Char} :
    ∀ s, pfx (p ++ q) s = true → pfx p s = true := by
  induction p with
  | nil => intro s _; rfl
  | cons a p' ih =>
    intro s h
    cases s with
    | nil => rw [List.cons_append, pfx] at h; exact absurd h (by simp)
    | cons b t =>
      rw [List.cons_append, pfx] at h
      rw [Bool.and_eq_true] at h
      rw [pfx, Bool.and_eq_true]
      exact ⟨h.1, ih t h.2⟩

theorem pfx_suffix_hasSub {p s l : List Char} (hp : pfx p s = true) (hs : s <:+ l) :
    hasSub p l = true := by
  induction l with
  | nil =>
    rw [List.suffix_nil] at hs
    subst hs
    rw [hasSub]
    exact hp
  | cons c cs ih =>
    rw [List.suffix_cons_iff] at hs
    rw [hasSub, Bool.or_eq_true]
    rcases hs with h1 | h2
    · subst h1; exact Or.inl hp
    · exact Or.inr (ih h2)

theorem hasSub_mono {p q : List Char} :
    ∀ l, hasSub (p ++ q) l = true → hasSub p l = true := by
  intro l
  induction l with
  | nil =>
    intro h
    rw [hasSub] at h ⊢
    cases p with
    | nil => rfl
    | cons a p' => rw [List.cons_append, pfx] at h; exact absurd h (by simp)
  | cons c cs ih =>
    intro h
    rw [hasSub, Bool.or_eq_true] at h ⊢
    rcases h with h1 | h2
    · exact Or.inl (pfx_append_left _ h1)
    · exact Or.inr (ih h2)

theorem ruleM_none_of_head {r : Rule} {h0 : Char} (hr : ruleHeadIs h0 r = true)
    {c : Char} (cs : List Char) (hc : c ≠ h0) : ruleM r (c :: cs) = none := by
  cases r with
  | lit p rep =>
    cases p with
    | nil => simp [ruleHeadIs] at hr
    | cons q ps =>
      simp only [ruleHeadIs] at hr
      have hq : q = h0 := eq_of_beq hr
      rw [ruleM, if_neg]
      intro hp
      exact hc ((pfx_head hp).symm.trans hq)
  | litWB p rep =>
    cases p with
    | nil => simp [ruleHeadIs] at hr
    | cons q ps =>
      simp only [ruleHeadIs] at hr
      have hq : q = h0 := eq_of_beq hr
      rw [ruleM, if_neg]
      rw [Bool.and_eq_true]
      intro hp
      exact hc ((pfx_head hp.1).symm.trans hq)
  | acuteBr l rep =>
    simp only [ruleHeadIs] at hr
    have hq : '\\' = h0 := eq_of_beq hr
    rw [ruleM, if_neg, if_neg]
    · intro hp; exact hc ((pfx_head hp).symm.trans hq)
    · intro hp; exact hc ((pfx_head hp).symm.trans hq)

theorem applyRule_eq_self (h0 : Char) {l : List Char} {r : Rule}
    (hr : ruleHeadIs h0 r = true) (hl : h0 ∉ l) : applyRule l r = l := by
  unfold applyRule
  refine subM_eq_self l fun c cs hs => ?_
  refine ruleM_none_of_head hr cs fun hch => ?_
  exact hl (hch ▸ hs.subset (List.mem_cons_self c cs))

theorem foldl_rules_eq_self {h0 : Char} :
    ∀ (rules : List Rule) (l : List Char), (∀ r ∈ rules, ruleHeadIs h0 r = true) →
      h0 ∉ l → rules.foldl applyRule l = l := by
  intro rules
  induction rules with
  | nil => intro l _ _; rfl
  | cons r rs ih =>
    intro l hrs hl
    rw [List.foldl_cons, applyRule_eq_self h0 (hrs r (by simp)) hl]
    exact ih l (fun r' hr' => hrs r' (by simp [hr'])) hl

theorem subM_lit_eq_self {p rep : List Char} {l : List Char}
    (h : hasSub p l = false) : subM (ruleM (.lit p rep)) l = l := by
  refine subM_eq_self l fun c cs hs => ?_
  rw [ruleM, if_neg]
  intro hp
  rw [pfx_suffix_hasSub hp hs] at h
  exact Bool.noConfusion h

/-! ### Whitespace-collapsing invariants -/

theorem dropWhile_head_false {p : Char → Bool} :
    ∀ l d ds, List.dropWhile p l = d :: ds → p d = false := by
  intro l
  induction l with
  | nil => intro d ds h; exact absurd h (by simp)
  | cons c cs ih =>
    intro d ds h
    rw [List.dropWhile_cons] at h
    by_cases hpc : p c = true
    · rw [if_pos hpc] at h; exact ih d ds h
    · rw [if_neg hpc] at h
      have : c = d := (List.cons.injEq _ _ _ _ ▸ h).1
      rw [← this]
      exact Bool.not_eq_true _ ▸ hpc

theorem drop_takeWhile_eq_dropWhile {p : Char → Bool} :
    ∀ cs : List Char, cs.drop (cs.takeWhile p).length = cs.dropWhile p := by
  intro cs
  induction cs with
  | nil => rfl
  | cons c cs ih =>
    rw [List.takeWhile_cons, List.dropWhile_cons]
    by_cases hpc : p c = true
    · rw [if_pos hpc, if_pos hpc, List.length_cons, List.drop_succ_cons]
      exact ih
    · rw [if_neg hpc, if_neg hpc]
      rfl

theorem wsM_some {c : Char} {cs} (h : isWs c = true) :
    wsM (c :: cs) = some ((cs.takeWhile isWs).length, [' ']) := by
  rw [wsM, if_pos h]

theorem wsM_none {c : Char} {cs} (h : isWs c = false) : wsM (c :: cs) = none := by
  rw [wsM, if_neg (by simp [h])]

theorem subMF_wsM_head {k : Nat} {d : Char} {ds} (hd : isWs d = false) :
    (subMF wsM k (d :: ds)).head? = some d := by
  cases k with
  | zero => rfl
  | succ k => rw [subMF, wsM_none hd]; rfl

theorem okWs_subM_wsM (l : List Char) : okWs (subM wsM l) := by
  have key : ∀ k l, l.length ≤ k → okWs (subMF wsM k l) := by
    intro k
    induction k with
    | zero =>
      intro l hl
      have : l = [] := List.eq_nil_of_length_eq_zero (Nat.le_zero.mp hl)
      subst this
      exact ⟨by simp [subMF], by simp [subMF]⟩
    | succ k ih =>
      intro l hl
      cases l with
      | nil => exact ⟨by simp [subMF], by simp [subMF]⟩
      | cons c cs =>
        by_cases hc : isWs c = true
        · simp only [subMF, wsM_some hc]
          rw [drop_takeWhile_eq_dropWhile]
          have hlen : (cs.dropWhile isWs).length ≤ k := by
            have h1 : (cs.dropWhile isWs).length ≤ cs.length :=
              (List.dropWhile_suffix isWs).length_le
            simp at hl
            omega
          have hrec := ih (cs.dropWhile isWs) hlen
          constructor
          · intro x hx
            rw [List.cons_append, List.nil_append, List.mem_cons] at hx
            rcases hx with h1 | h2
            · intro _; exact h1
            · exact hrec.1 x h2
          · rw [List.cons_append, List.nil_append]
            rw [List.chain'_cons']
            refine ⟨?_, hrec.2⟩
            intro y hy
            cases hrest : cs.dropWhile isWs with
            | nil =>
              rw [hrest] at hy
              cases k <;> simp [subMF] at hy
            | cons d ds =>
              have hdw : isWs d = false := dropWhile_head_false cs d ds hrest
              rw [hrest, subMF_wsM_head hdw, Option.mem_some_iff] at hy
              subst hy
              intro _ hd2
              rw [hdw] at hd2
              exact Bool.noConfusion hd2
        · have hc' : isWs c = false := Bool.not_eq_true _ ▸ hc
          simp only [subMF, wsM_none hc']
          have hrec := ih cs (by simp at hl; omega)
          constructor
          · intro x hx
            rw [List.mem_cons] at hx
            rcases hx with h1 | h2
            · subst h1; intro hcw; rw [hc'] at hcw; exact Bool.noConfusion hcw
            · exact hrec.1 x h2
          · rw [List.chain'_cons']
            refine ⟨?_, hrec.2⟩
            intro y _
            intro hcw
            rw [hc'] at hcw
            exact Bool.noConfusion hcw
  exact key l.length l (Nat.le_refl _)

theorem okWs_id_subM_wsM : ∀ l, okWs l → subM wsM l = l := by
  have key : ∀ k l, l.length ≤ k → okWs l → subMF wsM k l = l := by
    intro k
    induction k with
    | zero =>
      intro l hl _
      have : l = [] := List.eq_nil_of_length_eq_zero (Nat.le_zero.mp hl)
      subst this
      rfl
    | succ k ih =>
      intro l hl hok
      cases l with
      | nil => rfl
      | cons c cs =>
        by_cases hc : isWs c = true
        · have hsp : c = ' ' := hok.1 c (by simp) hc
          have htw : cs.takeWhile isWs = [] := by
            cases cs with
            | nil => rfl
            | cons d ds =>
              have hrel : noTwoWs c d := (List.chain'_cons'.mp hok.2).1 d rfl
              cases hd : isWs d with
              | true => exact absurd (hrel hc hd) not_false
              | false => rw [List.takeWhile_cons, if_neg (by simp [hd])]
          simp only [subMF, wsM_some hc, htw]
          rw [List.length_nil, List.drop_zero, List.cons_append, List.nil_append]
          rw [← hsp]
          congr 1
          exact ih cs (by simp at hl; omega) ⟨fun x hx => hok.1 x (by simp [hx]), hok.2.tail⟩
        · have hc' : isWs c = false := Bool.not_eq_true _ ▸ hc
          simp only [subMF, wsM_none hc']
          congr 1
          exact ih cs (by simp at hl; omega) ⟨fun x hx => hok.1 x (by simp [hx]), hok.2.tail⟩
  intro l hok
  exact key l.length l (Nat.le_refl _) hok

theorem chain_noTwoWs_reverse {l : List Char} (h : List.Chain' noTwoWs l) :
    List.Chain' noTwoWs l.reverse := by
  rw [List.chain'_reverse]
  exact h.imp fun a b hab => fun hb ha => hab ha hb

theorem chain_noTwoWs_dropWhile {l : List Char} (h : List.Chain' noTwoWs l) :
    List.Chain' noTwoWs (l.dropWhile isWs) := by
  obtain ⟨t, ht⟩ := @List.dropWhile_suffix Char l isWs
  rw [← ht] at h
  exact (List.chain'_append.mp h).2.1

theorem stripWs_subset (l : List Char) : stripWs l ⊆ l := by
  intro x hx
  unfold stripWs at hx
  rw [List.mem_reverse] at hx
  have h1 := (List.dropWhile_suffix isWs).subset hx
  rw [List.mem_reverse] at h1
  exact (List.dropWhile_suffix isWs).subset h1

theorem okWs_stripWs {l : List Char} (h : okWs l) : okWs (stripWs l) := by
  constructor
  · intro c hc
    exact h.1 c (stripWs_subset l hc)
  · unfold stripWs
    exact chain_noTwoWs_reverse (chain_noTwoWs_dropWhile
      (chain_noTwoWs_reverse (chain_noTwoWs_dropWhile h.2)))

theorem dropWhile_idem {p : Char → Bool} (l : List Char) :
    List.dropWhile p (List.dropWhile p l) = List.dropWhile p l := by
  cases h : List.dropWhile p l with
  | nil => rfl
  | cons d ds =>
    rw [List.dropWhile_cons, if_neg (by simp [dropWhile_head_false l d ds h])]

theorem wsDropR_idem (l : List Char) : wsDropR (wsDropR l) = wsDropR l := by
  unfold wsDropR
  rw [List.reverse_reverse, dropWhile_idem]

theorem wsDropR_head {x d : Char} {ds : List Char}
    (hx : ∀ e es, x :: ds = e :: es → True) : True := trivial

theorem wsDropL_of_head {x : List Char}
    (hx : ∀ d ds, x = d :: ds → isWs d = false) : wsDropL x = x := by
  unfold wsDropL
  cases hc : x with
  | nil => rfl
  | cons d ds => rw [List.dropWhile_cons, if_neg (by simp [hx d ds hc])]

theorem wsDropR_prefix_shape (x : List Char) : ∃ t, x = wsDropR x ++ t := by
  obtain ⟨t, ht⟩ := @List.dropWhile_suffix Char x.reverse isWs
  refine ⟨t.reverse, ?_⟩
  have : x.reverse.reverse = (t ++ x.reverse.dropWhile isWs).reverse := by rw [ht]
  rw [List.reverse_reverse, List.reverse_append] at this
  exact this

theorem stripWs_idem (l : List Char) : stripWs (stripWs l) = stripWs l := by
  have hsw : ∀ y, stripWs y = wsDropR (wsDropL y) := fun y => rfl
  rw [hsw, hsw]
  have hhead : ∀ d ds, wsDropL l = d :: ds → isWs d = false := fun d ds h =>
    dropWhile_head_false l d ds h
  have hgoal : wsDropL (wsDropR (wsDropL l)) = wsDropR (wsDropL l) := by
    refine wsDropL_of_head ?_
    intro d ds h
    obtain ⟨t, ht⟩ := wsDropR_prefix_shape (wsDropL l)
    rw [h] at ht
    exact hhead d (ds ++ t) (by rw [ht]; simp)
  rw [hgoal, wsDropR_idem]

/-! ### Quote elimination and conditional idempotence -/

theorem ruleM_single_fires (c0 : Char) (rep : List Char) :
    ∀ cs, ruleM (.lit [c0] rep) (c0 :: cs) ≠ none := by
  intro cs
  rw [ruleM, if_pos (by simp [pfx])]
  simp

theorem ruleM_lit_repl {p rep : List Char} {c : Char} {cs n r}
    (h : ruleM (.lit p rep) (c :: cs) = some (n, r)) : r = rep := by
  rw [ruleM] at h
  by_cases hp : pfx p (c :: cs) = true
  · rw [if_pos hp] at h
    simp at h
    exact h.2.symm
  · rw [if_neg hp] at h
    exact absurd h (by simp)

theorem applyRule_lit_kill {c0 : Char} {rep : List Char} (hrep : c0 ∉ rep) :
    ∀ l, c0 ∉ applyRule l (.lit [c0] rep) := by
  intro l
  exact subM_kill (ruleM_single_fires c0 rep)
    (fun c cs n r hm => (ruleM_lit_repl hm) ▸ hrep) l

theorem applyRule_lit_mem {p rep : List Char} {l : List Char} {x : Char}
    (hx : x ∈ applyRule l (.lit p rep)) : x ∈ l ∨ x ∈ rep := by
  refine subM_subset ?_ l x hx
  intro c cs n r hm
  rw [ruleM_lit_repl hm]
  intro y hy
  simp [List.mem_append, hy]

theorem subM_cmdM_mem {l : List Char} {x : Char} (hx : x ∈ subM cmdM l) :
    x ∈ l ∨ x ∈ [' '] := by
  refine subM_subset ?_ l x hx
  intro c cs n r hm
  rw [cmdM] at hm
  by_cases hc : c = '\\'
  · rw [if_pos hc] at hm
    by_cases hrun : (cs.takeWhile isAlphaC).isEmpty = true
    · rw [if_pos hrun] at hm; exact absurd hm (by simp)
    · rw [if_neg hrun] at hm
      simp at hm
      rw [← hm.2]
      intro y hy
      simp at hy
      simp [hy]
  · rw [if_neg hc] at hm; exact absurd hm (by simp)

theorem subM_escM_mem {l : List Char} {x : Char} (hx : x ∈ subM escM l) :
    x ∈ l ∨ x ∈ [' '] := by
  refine subM_subset ?_ l x hx
  intro c cs n r hm
  cases cs with
  | nil => exact absurd hm (by rw [show escM [c] = none from rfl]; simp)
  | cons d rest =>
    rw [escM] at hm
    by_cases hc : (c = '\\' && d ≠ '\n') = true
    · rw [if_pos hc] at hm
      simp at hm
      rw [← hm.2]
      intro y hy
      simp at hy
      simp [hy]
    · rw [if_neg hc] at hm; exact absurd hm (by simp)

theorem subM_wsM_mem {l : List Char} {x : Char} (hx : x ∈ subM wsM l) :
    x ∈ l ∨ x ∈ [' '] := by
  refine subM_subset ?_ l x hx
  intro c cs n r hm
  rw [wsM] at hm
  by_cases hc : isWs c = true
  · rw [if_pos hc] at hm
    simp at hm
    rw [← hm.2]
    intro y hy
    simp at hy
    simp [hy]
  · rw [if_neg hc] at hm; exact absurd hm (by simp)

/-- After the full pipeline no backtick remains: the backtick pass
replaces every occurrence (its replacement text contains none), and no
later pass reintroduces one.  Straight apostrophes, by contrast, can
survive: the source never replaces them (the statement written for them
on line 102 is part of the backtick pass's string literal), and the
backtick replacement text even introduces one. -/
theorem cleanL_no_backtick (d : List Char) : btc ∉ cleanL d := by
  simp only [cleanL]
  set v7 := applyRule (applyRule (applyRule (applyRule (subM braceM
    (simple_mappings.foldl applyRule (latex_mappings.foldl applyRule d)))
    (.lit ['-', '-'] ['–'])) (.lit ['-', '-', '-'] ['—']))
    (.lit [btc, btc] ['"'])) (.lit [apoc, apoc] ['"']) with hv7
  have h8 : btc ∉ applyRule v7 (.lit [btc] junkRepl) :=
    applyRule_lit_kill (by decide) v7
  set v8 := applyRule v7 (.lit [btc] junkRepl) with hv8
  have h9 : btc ∉ subM cmdM v8 := by
    intro hx
    rcases subM_cmdM_mem hx with h | h
    · exact h8 h
    · exact absurd h (by decide)
  set v9 := subM cmdM v8 with hv9
  have h10 : btc ∉ subM escM v9 := by
    intro hx
    rcases subM_escM_mem hx with h | h
    · exact h9 h
    · exact absurd h (by decide)
  set v10 := subM escM v9 with hv10
  have h11 : btc ∉ subM wsM v10 := by
    intro hx
    rcases subM_wsM_mem hx with h | h
    · exact h10 h
    · exact absurd h (by decide)
  exact fun hx => h11 (stripWs_subset _ hx)

/-- The output of the pipeline is whitespace-normalized. -/
theorem cleanL_okWs (d : List Char) : okWs (cleanL d) := by
  simp only [cleanL]
  exact okWs_stripWs (okWs_subM_wsM _)

/-- The output of the pipeline carries no leading or trailing whitespace:
stripping it again is the identity. -/
theorem cleanL_stripWs (d : List Char) : stripWs (cleanL d) = cleanL d := by
  simp only [cleanL]
  exact stripWs_idem _

/-- Core of the conditional idempotence: every pass of the pipeline leaves
a string unchanged when it contains no backslash, no opening brace, no
double hyphen, no adjacent pair of straight quotes, no backtick, and is
whitespace-normalized with no leading or trailing whitespace. -/
theorem cleanL_fixpoint {w : List Char}
    (hbs : '\\' ∉ w) (hlb : lbc ∉ w) (hdd : hasSub ['-', '-'] w = false)
    (hqq : hasSub [apoc, apoc] w = false) (hbt : btc ∉ w)
    (hws : okWs w) (hstrip : stripWs w = w) :
    cleanL w = w := by
  have hddd : hasSub ['-', '-', '-'] w = false := by
    cases h3 : hasSub ['-', '-', '-'] w with
    | false => rfl
    | true =>
      have := @hasSub_mono ['-', '-'] ['-'] w h3
      rw [this] at hdd
      exact Bool.noConfusion hdd
  have e1 : latex_mappings.foldl applyRule w = w :=
    foldl_rules_eq_self latex_mappings w (by decide) hbs
  have e2 : simple_mappings.foldl applyRule w = w :=
    foldl_rules_eq_self simple_mappings w (by decide) hbs
  have e3 : subM braceM w = w := by
    refine subM_eq_self w fun c cs hs => ?_
    rw [braceM, if_neg]
    intro hc
    exact hlb (hc ▸ hs.subset (List.mem_cons_self c cs))
  have e4 : applyRule w (.lit ['-', '-'] ['–']) = w := subM_lit_eq_self hdd
  have e5 : applyRule w (.lit ['-', '-', '-'] ['—']) = w := subM_lit_eq_self hddd
  have e6 : applyRule w (.lit [btc, btc] ['"']) = w :=
    applyRule_eq_self btc (by decide) hbt
  have e7 : applyRule w (.lit [apoc, apoc] ['"']) = w := subM_lit_eq_self hqq
  have e8 : applyRule w (.lit [btc] junkRepl) = w :=
    applyRule_eq_self btc (by decide) hbt
  have e9 : subM cmdM w = w := by
    refine subM_eq_self w fun c cs hs => ?_
    rw [cmdM, if_neg]
    intro hc
    exact hbs (hc ▸ hs.subset (List.mem_cons_self c cs))
  have e10 : subM escM w = w := by
    refine subM_eq_self w fun c cs hs => ?_
    cases cs with
    | nil => rfl
    | cons e rest =>
      rw [escM, if_neg]
      rw [Bool.and_eq_true]
      intro hc
      have : c = '\\' := by
        have := hc.1
        exact of_decide_eq_true this
      exact hbs (this ▸ hs.subset (List.mem_cons_self c _))
  have e11 : subM wsM w = w := okWs_id_subM_wsM w hws
  simp only [cleanL]
  rw [e1, e2, e3, e4, e5, e6, e7, e8, e9, e10, e11, hstrip]

/-- C3 (amended): normalization is idempotent on every value whose
normalized output contains no backslash, no opening brace, no
double-hyphen run and no adjacent pair of straight single quotes.  (It is
not idempotent on arbitrary values — see the counterexample theorem — a
second run strips one more level of braces; and because the source never
replaces straight apostrophes — the statement written for them on line
102 is absorbed into the backtick pass's triple-quoted string literal —
an apostrophe pair surviving the first run is collapsed to a double quote
by the second.) -/
theorem clean_idempotent_conditional (v : String)
    (h1 : '\\' ∉ (clean_field_value v).data)
    (h2 : lbc ∉ (clean_field_value v).data)
    (h3 : hasSub ['-', '-'] (clean_field_value v).data = false)
    (h4 : hasSub [apoc, apoc] (clean_field_value v).data = false) :
    clean_field_value (clean_field_value v) = clean_field_value v := by
  by_cases hv : v = ""
  · subst hv; rfl
  · have hcv : clean_field_value v = String.mk (cleanL v.data) := by
      rw [clean_field_value, if_neg hv]
    by_cases hw : clean_field_value v = ""
    · rw [hw]; rfl
    · have hout : clean_field_value (clean_field_value v)
          = String.mk (cleanL (clean_field_value v).data) := by
        rw [clean_field_value, if_neg hw]
      rw [hout]
      have hdata : (clean_field_value v).data = cleanL v.data := by rw [hcv]
      rw [hdata] at h1 h2 h3 h4 ⊢
      rw [hcv]
      have hbt := cleanL_no_backtick v.data
      have hfix : cleanL (cleanL v.data) = cleanL v.data :=
        cleanL_fixpoint h1 h2 h3 h4 hbt (cleanL_okWs v.data) (cleanL_stripWs v.data)
      rw [hfix]

/-- Witness for C3's amended theorem at a concrete input whose normalized
form satisfies the side conditions. -/
theorem clean_idempotent_conditional_witness :
    clean_field_value (clean_field_value "hello \x7bworld\x7d--ok") =
      clean_field_value "hello \x7bworld\x7d--ok" :=
  clean_idempotent_conditional "hello \x7bworld\x7d--ok"
    (by decide) (by decide) (by decide) (by decide)

/-! ### Concrete evaluation theorems -/

/-- C10: for the empty-string input, `clean_field_value` returns the empty
string (the falsy-input guard, source lines 17-18), and no error can be
raised (the function is total). -/
theorem empty_input_clean : clean_field_value "" = "" := rfl

/-- C1 (code evaluation at the failing input): because the source replaces
double hyphens before triple hyphens (lines 97-98), the value
`text--more---end` is normalized to en-dash, en-dash-plus-hyphen — not to
the en-dash/em-dash form the documentation of line 98 intends; the
em-dash replacement on line 98 can never fire. -/
theorem dash_order_mangles_em_dash :
    clean_field_value "text--more---end" = "text–more–-end" ∧
    clean_field_value "text--more---end" ≠ "text–more—end" := by
  constructor <;> decide

/-- C6: accent escapes resolve to precomposed letters in both the
brace-wrapped and the brace-free shorthand form: the value consisting of
a braced backslash-apostrophe-e followed by `cole` yields `école`, and
`caf` followed by the bare shorthand yields `café`. -/
theorem accent_escape_forms :
    clean_field_value "\x7b\\\x27e\x7dcole" = "école" ∧
    clean_field_value "caf\\\x27e" = "café" := by
  constructor <;> decide

/-- C8: the acute brace-wrapped patterns make the accent mark optional, so
a backslash directly followed by a braced `e` — with no accent character
at all — is rewritten to `é`. -/
theorem optional_acute_mark :
    clean_field_value "\\\x7be\x7d" = "é" := by decide

/-- C9: present-but-empty values are handled asymmetrically: in a body
containing an empty `author` (balanced pattern, group may be empty) and an
empty `year` (simple pattern, group requires at least one character), the
author is present with the empty string and the year is absent. -/
theorem empty_value_asymmetry :
    List.lookup "author" (extractFields "author = \x7b\x7d,\n  year = \x7b\x7d\n".data)
      = some "" ∧
    "year" ∉ (extractFields "author = \x7b\x7d,\n  year = \x7b\x7d\n".data).map Prod.fst := by
  constructor <;> decide

/-- C3, counterexample: normalization is not idempotent on every value.
For doubly nested braces the one-pass brace stripping leaves one brace
level behind, which a second run strips again. -/
theorem clean_not_idempotent :
    clean_field_value (clean_field_value "\x7b\x7ba\x7d\x7d")
      ≠ clean_field_value "\x7b\x7ba\x7d\x7d" := by decide

/-! ### Zero markers (C7) -/

/-- C7: an input text in which the segmenter finds zero record markers
yields an empty record sequence, both from the segmenter and from the
whole parser, and no error is raised (all functions are total). -/
theorem zero_markers_empty (content : List Char)
    (h : findMarkers content 0 = []) :
    segment content = [] ∧ parse_bibtex_file (String.mk content) = [] := by
  have hseg : segment content = [] := by
    unfold segment
    rw [h]
    rfl
  refine ⟨hseg, ?_⟩
  unfold parse_bibtex_file
  have : (String.mk content).data = content := rfl
  rw [this, hseg]
  rfl

/-- Witness for C7 at a concrete marker-free input. -/
theorem zero_markers_empty_witness :
    segment "no records in here".data = [] ∧
    parse_bibtex_file (String.mk "no records in here".data) = [] :=
  zero_markers_empty "no records in here".data (by decide)

/-! ### Absent anchor means absent field (C5) -/

/-- A successful field-pattern search implies the field's anchor occurs in
the body: the full pattern begins with the anchor. -/
theorem searchField_imp_hasAnchor (k : FKind) (nm : List Char) :
    ∀ body g, searchField k nm body = some g → hasAnchor nm body = true := by
  intro body
  induction body with
  | nil => intro g hg; simp [searchField] at hg
  | cons c cs ih =>
    intro g hg
    rw [searchField] at hg
    rw [hasAnchor]
    cases hm : matchFieldAt k nm (c :: cs) with
    | some g' =>
      unfold matchFieldAt at hm
      cases ha : matchAnchorAt nm (c :: cs) with
      | some r => simp [ha]
      | none => rw [ha] at hm; simp [Option.bind] at hm
    | none =>
      rw [hm] at hg
      rw [ih g hg]
      simp

/-- C5: for every record body and every field of the catalog, if the
field's anchor pattern is absent from the body then that field name is
entirely absent from the produced mapping — no key at all — and no error
is raised (extraction is total). -/
theorem absent_anchor_field_omitted (body : List Char) (p : String × FKind)
    (hp : p ∈ field_patterns) (h : hasAnchor p.1.data body = false) :
    ∀ v, (p.1, v) ∉ extractFields body := by
  intro v hv
  unfold extractFields at hv
  rw [List.mem_filterMap] at hv
  obtain ⟨q, hq, hqe⟩ := hv
  cases hs : searchField q.2 q.1.data body with
  | none => rw [hs] at hqe; simp at hqe
  | some g =>
    rw [hs] at hqe
    simp at hqe
    have hname : q.1 = p.1 := hqe.1
    have := searchField_imp_hasAnchor q.2 q.1.data body g hs
    rw [hname] at this
    rw [this] at h
    exact absurd h (by simp)

/-- Witness for C5: a body with no `doi` anchor produces no `doi` key. -/
theorem absent_anchor_field_omitted_witness :
    ("doi", "") ∉ extractFields "author = \x7bSomeone\x7d,\n  year = \x7b2001\x7d\n".data :=
  absent_anchor_field_omitted "author = \x7bSomeone\x7d,\n  year = \x7b2001\x7d\n".data
    ("doi", FKind.simple) (by decide) (by decide) ""

/-! ### Segmentation partition (C2) -/

theorem afterChar_some {c : Char} {l t : List Char} (h : afterChar c l = some t) :
    l = c :: t := by
  cases l with
  | nil => exact absurd h (by simp [afterChar])
  | cons d t' =>
    rw [afterChar] at h
    by_cases hd : d = c
    · rw [if_pos hd] at h
      simp at h
      rw [hd, h]
    · rw [if_neg hd] at h
      exact absurd h (by simp)

/-- A marker match consumes at least one and at most all of the characters. -/
theorem matchMarkerAt_bounds {cs : List Char} {len : Nat} {ty key : List Char}
    (h : matchMarkerAt cs = some (len, ty, key)) : 1 ≤ len ∧ len ≤ cs.length := by
  rw [matchMarkerAt] at h
  cases h1 : afterChar '@' cs with
  | none => rw [h1] at h; exact absurd h (by simp)
  | some r1 =>
    rw [h1] at h
    simp only [Option.some_bind] at h
    by_cases hty : (r1.takeWhile isWordC).isEmpty = true
    · rw [if_pos hty] at h; exact absurd h (by simp)
    rw [if_neg hty] at h
    cases h2 : afterChar lbc (r1.drop (r1.takeWhile isWordC).length) with
    | none => rw [h2] at h; exact absurd h (by simp)
    | some r2 =>
      rw [h2] at h
      simp only [Option.some_bind] at h
      by_cases hkey : (r2.takeWhile (fun d => !(d == ',' || isWs d))).isEmpty = true
      · rw [if_pos hkey] at h; exact absurd h (by simp)
      rw [if_neg hkey] at h
      cases h3 : afterChar ','
          (r2.drop (r2.takeWhile (fun d => !(d == ',' || isWs d))).length) with
      | none => rw [h3] at h; exact absurd h (by simp)
      | some rest =>
        rw [h3] at h
        simp only [Option.map_some'] at h
        have hlen : len = (r1.takeWhile isWordC).length
            + (r2.takeWhile (fun d => !(d == ',' || isWs d))).length + 3 := by
          have := (Prod.mk.injEq _ _ _ _).mp (Option.some.injEq _ _ ▸ h :)
          exact this.1.symm
        have e1 : cs.length = r1.length + 1 := by rw [afterChar_some h1]; rfl
        have e2 := congrArg List.length (afterChar_some h2)
        have e3 := congrArg List.length (afterChar_some h3)
        rw [List.length_drop] at e2 e3
        simp only [List.length_cons] at e2 e3
        omega

theorem findMarkersF_congr :
    ∀ k k' cs pos, cs.length ≤ k → cs.length ≤ k' →
      findMarkersF k cs pos = findMarkersF k' cs pos := by
  intro k
  induction k with
  | zero =>
    intro k' cs pos hk _
    have : cs = [] := List.eq_nil_of_length_eq_zero (Nat.le_zero.mp hk)
    subst this
    cases k' <;> rfl
  | succ k ih =>
    intro k' cs pos hk hk'
    cases cs with
    | nil => cases k' <;> rfl
    | cons c cs =>
      cases k' with
      | zero => simp at hk'
      | succ k' =>
        cases hm : matchMarkerAt (c :: cs) with
        | some r =>
          obtain ⟨len, ty, key⟩ := r
          have hb := matchMarkerAt_bounds hm
          simp only [findMarkersF, hm]
          have hlen : ((c :: cs).drop len).length ≤ k := by
            rw [List.length_drop]
            simp only [List.length_cons]
            simp only [List.length_cons] at hk
            omega
          have hlen' : ((c :: cs).drop len).length ≤ k' := by
            rw [List.length_drop]
            simp only [List.length_cons]
            simp only [List.length_cons] at hk'
            omega
          rw [ih k' _ _ hlen hlen']
        | none =>
          simp only [findMarkersF, hm]
          exact ih k' cs (pos + 1) (by simp at hk; omega) (by simp at hk'; omega)

/-- Every found marker starts at or after the scan position and strictly
before the end of the scanned text. -/
theorem findMarkersF_bound :
    ∀ k cs pos m, m ∈ findMarkersF k cs pos → pos ≤ m.1 ∧ m.1 + 1 ≤ pos + cs.length := by
  intro k
  induction k with
  | zero => intro cs pos m hm; simp [findMarkersF] at hm
  | succ k ih =>
    intro cs pos m hm
    cases cs with
    | nil => simp [findMarkersF] at hm
    | cons c cs =>
      cases hmk : matchMarkerAt (c :: cs) with
      | some r =>
        obtain ⟨len, ty, key⟩ := r
        have hb := matchMarkerAt_bounds hmk
        simp only [findMarkersF, hmk] at hm
        rw [List.mem_cons] at hm
        rcases hm with h1 | h2
        · subst h1
          simp only [List.length_cons]
          omega
        · have := ih _ _ m h2
          rw [List.length_drop] at this
          simp only [List.length_cons] at this ⊢
          simp only [List.length_cons] at hb
          omega
      | none =>
        simp only [findMarkersF, hmk] at hm
        have := ih cs (pos + 1) m hm
        simp only [List.length_cons]
        omega

/-- The found markers are in strictly increasing order of start offset. -/
theorem findMarkersF_chain :
    ∀ k cs pos, List.Chain' (fun a b : Marker => a.1 < b.1) (findMarkersF k cs pos) := by
  intro k
  induction k with
  | zero => intro cs pos; simp [findMarkersF]
  | succ k ih =>
    intro cs pos
    cases cs with
    | nil => simp [findMarkersF]
    | cons c cs =>
      cases hmk : matchMarkerAt (c :: cs) with
      | some r =>
        obtain ⟨len, ty, key⟩ := r
        have hb := matchMarkerAt_bounds hmk
        simp only [findMarkersF, hmk]
        rw [List.chain'_cons']
        refine ⟨?_, ih _ _⟩
        intro y hy
        have hmem : y ∈ findMarkersF k ((c :: cs).drop len) (pos + len) :=
          List.mem_of_mem_head? hy
        have := (findMarkersF_bound k _ _ y hmem).1
        omega
      | none =>
        simp only [findMarkersF, hmk]
        exact ih cs (pos + 1)

theorem entryBounds_length : ∀ (ms : List Marker) (len : Nat),
    (entryBounds ms len).length = ms.length := by
  intro ms
  induction ms with
  | nil => intro len; rfl
  | cons m rest ih =>
    intro len
    cases rest with
    | nil => rfl
    | cons m2 rest' =>
      rw [show entryBounds (m :: m2 :: rest') len = (m, m2.1) :: entryBounds (m2 :: rest') len
        from rfl]
      simp only [List.length_cons]
      rw [ih len]
      simp

theorem entryBounds_get : ∀ (ms : List Marker) (len : Nat) (i : Nat)
    (h : i < ms.length) (h2 : i < (entryBounds ms len).length),
    (entryBounds ms len).get ⟨i, h2⟩ =
      (ms.get ⟨i, h⟩,
       if h3 : i + 1 < ms.length then (ms.get ⟨i + 1, h3⟩).1 else len) := by
  intro ms
  induction ms with
  | nil => intro len i h _; simp at h
  | cons m rest ih =>
    intro len i h h2
    cases rest with
    | nil =>
      simp only [List.length_cons, List.length_nil] at h
      interval_cases i
      · show ([(m, len)] : List (Marker × Nat)).get ⟨0, h2⟩ = _
        simp
    | cons m2 rest' =>
      show ((m, m2.1) :: entryBounds (m2 :: rest') len).get ⟨i, h2⟩ = _
      cases i with
      | zero => simp
      | succ j =>
        have hj : j < (m2 :: rest').length := by
          simp only [List.length_cons] at h ⊢
          omega
        have hj2 : j < (entryBounds (m2 :: rest') len).length := by
          rw [entryBounds_length]
          exact hj
        simp only [List.get_cons_succ]
        rw [ih len j hj hj2]
        congr 1
        by_cases h4 : j + 1 < (m2 :: rest').length
        · rw [dif_pos h4, dif_pos (show j + 1 + 1 < (m :: m2 :: rest').length by
            simp only [List.length_cons] at h4 ⊢
            omega)]
          simp
        · rw [dif_neg h4, dif_neg (show ¬(j + 1 + 1 < (m :: m2 :: rest').length) by
            simp only [List.length_cons] at h4 ⊢
            omega)]

/-- Gluing adjacent slices: the slice from `a` to `b` followed by the rest
of the text from `b` is the rest of the text from `a`. -/
theorem extract_glue {x : List Char} {a b : Nat} (h : a ≤ b) :
    extract x a b ++ x.drop b = x.drop a := by
  unfold extract
  have := List.drop_take_append_drop x a (b - a)
  rw [Nat.add_sub_cancel' h] at this
  exact this

/-- A slice that reaches the end of the text is a plain drop. -/
theorem extract_to_end (x : List Char) (a : Nat) :
    extract x a x.length = x.drop a := by
  unfold extract
  refine List.take_of_length_le ?_
  rw [List.length_drop]

theorem entryBounds_join (content : List Char) :
    ∀ ms : List Marker, List.Chain' (fun a b : Marker => a.1 < b.1) ms →
      (∀ m ∈ ms, m.1 ≤ content.length) →
      ((entryBounds ms content.length).map fun me => extract content me.1.1 me.2).flatten
        = content.drop (firstStart ms content.length) := by
  intro ms
  induction ms with
  | nil =>
    intro _ _
    rw [show entryBounds ([] : List Marker) content.length = [] from rfl]
    rw [show firstStart ([] : List Marker) content.length = content.length from rfl]
    simp [List.drop_length]
  | cons m rest ih =>
    intro hch hmem
    cases rest with
    | nil =>
      rw [show entryBounds [m] content.length = [(m, content.length)] from rfl]
      simp only [List.map_cons, List.map_nil, List.flatten_cons, List.flatten_nil]
      rw [show firstStart [m] content.length = m.1 from rfl]
      simp only [List.append_nil]
      exact extract_to_end content m.1
    | cons m2 rest' =>
      rw [show entryBounds (m :: m2 :: rest') content.length
        = (m, m2.1) :: entryBounds (m2 :: rest') content.length from rfl]
      simp only [List.map_cons, List.flatten_cons]
      have hch2 : List.Chain' (fun a b : Marker => a.1 < b.1) (m2 :: rest') := hch.tail
      have hIH := ih hch2 fun x hx => hmem x (by simp [hx])
      rw [hIH]
      rw [show firstStart (m :: m2 :: rest') content.length = m.1 from rfl]
      rw [show firstStart (m2 :: rest') content.length = m2.1 from rfl]
      have hlt : m.1 < m2.1 := (List.chain'_cons.mp hch).1
      exact extract_glue (Nat.le_of_lt hlt)

/-- C2: for every input text, segmentation returns exactly as many records
as there are markers, in source order; the body of record `i` is the
half-open slice from marker `i`'s start offset up to marker `i+1`'s start
offset (end of text for the last); the marker offsets strictly increase
(so the bodies are non-overlapping); and the concatenation of all bodies
is exactly the text from the first marker's start to the end. -/
theorem segmentation_partition (content : List Char) :
    (segment content).length = (findMarkers content 0).length ∧
    (∀ i (hm : i < (findMarkers content 0).length) (he : i < (segment content).length),
      ((segment content).get ⟨i, he⟩).body =
        extract content ((findMarkers content 0).get ⟨i, hm⟩).1
          (if h3 : i + 1 < (findMarkers content 0).length
           then ((findMarkers content 0).get ⟨i + 1, h3⟩).1 else content.length)) ∧
    List.Chain' (fun a b : Marker => a.1 < b.1) (findMarkers content 0) ∧
    ((segment content).map RawRecord.body).flatten =
      content.drop (firstStart (findMarkers content 0) content.length) := by
  have hch : List.Chain' (fun a b : Marker => a.1 < b.1) (findMarkers content 0) :=
    findMarkersF_chain content.length content 0
  have hbd : ∀ m ∈ findMarkers content 0, m.1 ≤ content.length := by
    intro m hm
    have := (findMarkersF_bound content.length content 0 m hm).2
    omega
  refine ⟨?_, ?_, hch, ?_⟩
  · unfold segment
    rw [List.length_map, entryBounds_length]
  · intro i hm he
    unfold segment
    rw [List.get_map]
    rw [entryBounds_get (findMarkers content 0) content.length i hm
      (by rw [entryBounds_length]; exact hm)]
  · unfold segment
    rw [List.map_map]
    have : (RawRecord.body ∘ fun me : Marker × Nat =>
        { type := me.1.2.1.map Char.toLower, key := stripWs me.1.2.2,
          body := extract content me.1.1 me.2 : RawRecord })
        = fun me : Marker × Nat => extract content me.1.1 me.2 := rfl
    rw [this]
    exact entryBounds_join content (findMarkers content 0) hch hbd

/-- Witness for C2 at a concrete two-record input. -/
theorem segmentation_partition_witness :
    (segment "x@a\x7bk,y\x7d@b\x7bq,z\x7d".data).length
        = (findMarkers "x@a\x7bk,y\x7d@b\x7bq,z\x7d".data 0).length ∧
    (∀ he : 0 < (segment "x@a\x7bk,y\x7d@b\x7bq,z\x7d".data).length,
      ((segment "x@a\x7bk,y\x7d@b\x7bq,z\x7d".data).get ⟨0, he⟩).body =
        extract "x@a\x7bk,y\x7d@b\x7bq,z\x7d".data 1 8) ∧
    ((segment "x@a\x7bk,y\x7d@b\x7bq,z\x7d".data).map RawRecord.body).flatten =
      "x@a\x7bk,y\x7d@b\x7bq,z\x7d".data.drop 1 := by
  have h := segmentation_partition "x@a\x7bk,y\x7d@b\x7bq,z\x7d".data
  refine ⟨h.1, ?_, ?_⟩
  · intro he
    have h2 := h.2.1 0 (by decide) he
    exact h2.trans (by decide)
  · exact h.2.2.2.trans (by decide)

/-! ### Nested-brace field extraction (C4) -/

theorem takeWhile_until {p : Char → Bool} {a : List Char} {d : Char} (t : List Char)
    (ha : ∀ x ∈ a, p x = true) (hd : p d = false) :
    (a ++ d :: t).takeWhile p = a := by
  rw [List.takeWhile_append_of_pos ha, List.takeWhile_cons, if_neg (by simp [hd])]
  simp

theorem balGroupF_congr :
    ∀ k k' r, r.length < k → r.length < k' → balGroupF k r = balGroupF k' r := by
  intro k
  induction k with
  | zero => intro k' r hk _; omega
  | succ k ih =>
    intro k' r hk hk'
    cases k' with
    | zero => omega
    | succ k' =>
      rw [balGroupF, balGroupF]
      cases hd : r.drop (r.takeWhile nonBrace).length with
      | nil => rfl
      | cons d r2 =>
        dsimp only
        by_cases hdr : d = rbc
        · rw [if_pos hdr, if_pos hdr]
        rw [if_neg hdr, if_neg hdr]
        by_cases hdl : d = lbc
        · rw [if_pos hdl, if_pos hdl]
          cases he : r2.drop (r2.takeWhile nonBrace).length with
          | nil => rfl
          | cons e r3 =>
            dsimp only
            by_cases her : e = rbc
            · rw [if_pos her, if_pos her]
              have hr2 : r2.length < r.length := by
                have h1 := congrArg List.length hd
                rw [List.length_drop] at h1
                simp only [List.length_cons] at h1
                omega
              have hr3 : r3.length < r2.length := by
                have h1 := congrArg List.length he
                rw [List.length_drop] at h1
                simp only [List.length_cons] at h1
                omega
              rw [ih k' r3 (by omega) (by omega)]
            · rw [if_neg her, if_neg her]
        · rw [if_neg hdl, if_neg hdl]

/-- The balanced capture group ends at a closing brace immediately after a
non-brace run. -/
theorem balGroup_close {a : List Char} (r2 : List Char)
    (ha : ∀ x ∈ a, nonBrace x = true) :
    balGroup (a ++ rbc :: r2) = some a := by
  rw [balGroup, balGroupF]
  rw [takeWhile_until r2 ha (by decide)]
  rw [List.drop_left]
  dsimp only
  rw [if_pos rfl]

/-- The balanced capture group absorbs one inner brace group and continues. -/
theorem balGroup_nested {a b : List Char} (r3 : List Char)
    (ha : ∀ x ∈ a, nonBrace x = true) (hb : ∀ x ∈ b, nonBrace x = true) :
    balGroup (a ++ lbc :: (b ++ rbc :: r3)) =
      (balGroup r3).map fun g => a ++ lbc :: (b ++ rbc :: g) := by
  rw [balGroup, balGroupF]
  rw [takeWhile_until (b ++ rbc :: r3) ha (by decide)]
  rw [List.drop_left]
  dsimp only
  rw [if_neg (by decide), if_pos rfl]
  rw [takeWhile_until r3 hb (by decide)]
  rw [List.drop_left]
  dsimp only
  rw [if_pos rfl]
  rw [balGroupF_congr ((a ++ lbc :: (b ++ rbc :: r3)).length) (r3.length + 1) r3
    (by simp; omega) (by omega)]
  rfl

theorem matchAnchorAt_title (X : List Char) :
    matchAnchorAt "title".data
      ('t' :: 'i' :: 't' :: 'l' :: 'e' :: ' ' :: '=' :: ' ' :: lbc :: X) = some X := by
  rw [matchAnchorAt, if_pos (by simp [pfx])]
  rw [show ("title".data).length = 5 from rfl]
  rw [show ('t' :: 'i' :: 't' :: 'l' :: 'e' :: ' ' :: '=' :: ' ' :: lbc :: X).drop 5
    = ' ' :: '=' :: ' ' :: lbc :: X from rfl]
  rw [show (' ' :: '=' :: ' ' :: lbc :: X).dropWhile isWs = '=' :: ' ' :: lbc :: X by
    simp [List.dropWhile, isWs]]
  rw [afterChar, if_pos rfl, Option.some_bind]
  rw [show (' ' :: lbc :: X).dropWhile isWs = lbc :: X by simp [List.dropWhile, isWs, lbc]]
  rw [afterChar, if_pos rfl]

/-- C4: extraction of a brace-balanced field captures one level of nested
braces: for every record body anchored by the title pattern whose value is
a brace-free run, an inner braced group and a further brace-free run, the
captured group is the whole value including the inner group — extraction
does not stop at the first inner closing brace.  At the concrete body of
the specification, the extracted and cleaned title is `A Study of X`. -/
theorem nested_brace_extraction :
    (∀ a b c rest : List Char,
      (∀ x ∈ a, nonBrace x = true) → (∀ x ∈ b, nonBrace x = true) →
      (∀ x ∈ c, nonBrace x = true) →
      searchField .balanced "title".data
        ('t' :: 'i' :: 't' :: 'l' :: 'e' :: ' ' :: '=' :: ' ' :: lbc ::
          (a ++ lbc :: (b ++ rbc :: (c ++ rbc :: rest))))
        = some (a ++ lbc :: (b ++ rbc :: c))) ∧
    List.lookup "title" (extractFields "title = \x7bA \x7bStudy\x7d of X\x7d".data)
      = some "A Study of X" := by
  constructor
  · intro a b c rest ha hb hc
    have hanch := matchAnchorAt_title (a ++ lbc :: (b ++ rbc :: (c ++ rbc :: rest)))
    have hbal : balGroup (a ++ lbc :: (b ++ rbc :: (c ++ rbc :: rest)))
        = some (a ++ lbc :: (b ++ rbc :: c)) := by
      rw [balGroup_nested (c ++ rbc :: rest) ha hb]
      rw [balGroup_close rest hc]
      rfl
    rw [searchField]
    rw [show matchFieldAt FKind.balanced "title".data
        ('t' :: 'i' :: 't' :: 'l' :: 'e' :: ' ' :: '=' :: ' ' :: lbc ::
          (a ++ lbc :: (b ++ rbc :: (c ++ rbc :: rest))))
      = some (a ++ lbc :: (b ++ rbc :: c)) by
        rw [matchFieldAt, hanch, Option.some_bind]
        exact hbal]
  · decide

/-- Witness for C4's quantified part at the specification's example value. -/
theorem nested_brace_extraction_witness :
    searchField FKind.balanced "title".data "title = \x7bA \x7bStudy\x7d of X\x7d".data
      = some "A \x7bStudy\x7d of X".data := by
  have h := nested_brace_extraction.1 ['A', ' '] "Study".data " of X".data []
    (by decide) (by decide) (by decide)
  rw [show ("title = \x7bA \x7bStudy\x7d of X\x7d".data :)
    = 't' :: 'i' :: 't' :: 'l' :: 'e' :: ' ' :: '=' :: ' ' :: lbc ::
      (['A', ' '] ++ lbc :: ("Study".data ++ rbc :: (" of X".data ++ rbc :: []))) from by decide]
  rw [h]
  decide

end BibSpec
